import Mathlib

/-!
Verification of the macd_trader repository's result-storage, decision-extraction,
MACD-indicator and notification components, as a shallow embedding in Lean.

Text is modelled as `List Char` (Python `str` is a sequence of code points).
Python dicts are modelled as association lists with insertion-order upsert.
The filesystem seen by the storage module is modelled as an explicit store value.
-/

/-- Code points of a Lean string literal, used to write Python string values. -/
def cs (s : String) : List Char := s.data

/-! ## Decision extraction (src/macd_trader/main.py, extract_decision_from_result) -/

/-- Substring membership, Python's `pat in text`. -/
def containsSub (pat : List Char) : List Char → Bool
  | [] => pat.isEmpty
  | c :: rest => pat.isPrefixOf (c :: rest) || containsSub pat rest

/-- Whitespace class of Python's regex `\s` on `str` (the code points for which
`str.isspace()` holds); only these occur between tokens in the matched patterns. -/
def isPySpace (c : Char) : Bool :=
  c.toNat ∈ ([0x9, 0xa, 0xb, 0xc, 0xd, 0x20, 0x1c, 0x1d, 0x1e, 0x1f, 0x85, 0xa0,
      0x1680, 0x2000, 0x2001, 0x2002, 0x2003, 0x2004, 0x2005, 0x2006, 0x2007,
      0x2008, 0x2009, 0x200a, 0x2028, 0x2029, 0x202f, 0x205f, 0x3000] : List Nat)

/-- ASCII case swap; case-insensitive matching is modelled on the ASCII range,
which covers every letter occurring in the matched patterns. -/
def swapAscii (c : Char) : Char :=
  if c.isUpper then c.toLower else if c.isLower then c.toUpper else c

/-- Case-insensitive match of one text char `c` against one pattern char `p`
(regex `re.IGNORECASE`, simple fold restricted to ASCII). -/
def charCIEq (p c : Char) : Bool := c == p || c == swapAscii p

/-- Match a literal at the head of the text; returns the remaining text. -/
def stripLit : List Char → List Char → Option (List Char)
  | [], s => some s
  | _ :: _, [] => none
  | p :: ps, c :: rest => if c = p then stripLit ps rest else none

/-- Case-insensitive variant of `stripLit`; also returns the consumed text chars
(the chars of the match group, before any normalization). -/
def stripCILit : List Char → List Char → Option (List Char × List Char)
  | [], s => some ([], s)
  | _ :: _, [] => none
  | p :: ps, c :: rest =>
    if charCIEq p c then
      (stripCILit ps rest).map (fun pr => (c :: pr.1, pr.2))
    else none

/-- The three decision keywords, in the alternation order of the source regexes. -/
inductive Kw | buy | sell | hold
deriving DecidableEq

/-- The string the Python code returns for a keyword. -/
def kwChars : Kw → List Char
  | .buy => cs "BUY"
  | .sell => cs "SELL"
  | .hold => cs "HOLD"

/-- Case-exact alternation `(BUY|SELL|HOLD)` at the head of the text. -/
def matchKwAt (s : List Char) : Option (Kw × List Char) :=
  match stripLit (cs "BUY") s with
  | some r => some (.buy, r)
  | none =>
    match stripLit (cs "SELL") s with
    | some r => some (.sell, r)
    | none =>
      match stripLit (cs "HOLD") s with
      | some r => some (.hold, r)
      | none => none

/-- Case-insensitive alternation `(BUY|SELL|HOLD)`; returns the consumed chars. -/
def matchKwCIAt (s : List Char) : Option (List Char × List Char) :=
  match stripCILit (cs "BUY") s with
  | some r => some r
  | none =>
    match stripCILit (cs "SELL") s with
    | some r => some r
    | none =>
      match stripCILit (cs "HOLD") s with
      | some r => some r
      | none => none

/-- Pattern 2 of the source, matched at one position:
regex `"decision"\s*:\s*"(BUY|SELL|HOLD)"` (case-exact). -/
def matchP2At (s : List Char) : Option Kw :=
  (stripLit (cs "\"decision\"") s).bind fun s1 =>
  (stripLit [':'] (s1.dropWhile isPySpace)).bind fun s3 =>
  (stripLit ['"'] (s3.dropWhile isPySpace)).bind fun s5 =>
  (matchKwAt s5).bind fun kr =>
  (stripLit ['"'] kr.2).map fun _ => kr.1

/-- Character class of pattern 3 in the source. The source file's bytes for this
class are the UTF-8 encoding of the three characters U+00EF, U+00BC, U+0161
(a double-encoded U+FF1A full-width colon), so the class matches ':' and those
three characters - not U+FF1A itself. Case closure under IGNORECASE adds the
upper-case partners of U+00EF and U+0161. -/
def mojibakeColon (c : Char) : Bool :=
  c ∈ [':', 'ï', 'Ï', '¼', 'š', 'Š']

/-- Pattern 3 of the source, matched at one position:
regex `decision\s*[...]\s*(BUY|SELL|HOLD)` with IGNORECASE, where the class is
`mojibakeColon`; returns the chars of the capture group. -/
def matchP3At (s : List Char) : Option (List Char) :=
  (stripCILit (cs "decision") s).bind fun pr =>
  match pr.2.dropWhile isPySpace with
  | [] => none
  | c :: s3 =>
    if mojibakeColon c then
      (matchKwCIAt (s3.dropWhile isPySpace)).map (fun mr => mr.1)
    else none

/-- Left-to-right scan of `re.search`: try the position matcher at every suffix. -/
def searchWith (m : List Char → Option α) : List Char → Option α
  | [] => m []
  | c :: rest =>
    match m (c :: rest) with
    | some r => some r
    | none => searchWith m rest

/-- Word character for `\b`, modelled on the ASCII range (letters, digits, `_`);
every character occurring in the inputs considered agrees with Python's `\w`. -/
def wordChar (c : Char) : Bool := c.isAlphanum || c == '_'

/-- Whether a position whose previous character is `prev` is a left word boundary
for a keyword (keywords start with a word character). -/
def prevOk : Option Char → Bool
  | none => true
  | some p => !wordChar p

/-- Pattern 4 matched at one position: keyword with a right word boundary. -/
def matchP4Here (s : List Char) : Option Kw :=
  (matchKwAt s).bind fun kr =>
  match kr.2 with
  | [] => some kr.1
  | c :: _ => if wordChar c then none else some kr.1

/-- Scan for pattern 4, regex `\b(BUY|SELL|HOLD)\b`, carrying the previous char. -/
def searchP4Aux (prev : Option Char) : List Char → Option Kw
  | [] => none
  | c :: rest =>
    match (if prevOk prev then matchP4Here (c :: rest) else none) with
    | some kw => some kw
    | none => searchP4Aux (some c) rest

/-- Search for pattern 2 over the whole text. -/
def searchPat2 (text : List Char) : Option Kw := searchWith matchP2At text

/-- Search for pattern 3 over the whole text. -/
def searchPat3 (text : List Char) : Option (List Char) := searchWith matchP3At text

/-- Search for pattern 4 over the whole text. -/
def searchPat4 (text : List Char) : Option Kw := searchP4Aux none text

/-- Embedding of `extract_decision_from_result` (main.py lines 58-86).
Pattern 1 is the literal loop over bracketed tags in order BUY, SELL, HOLD;
then the three regex searches; the fallthrough returns HOLD. The source's
`try/except` wrapper has no effect in the model since matching is total. -/
def extract_decision_from_result (text : List Char) : List Char :=
  if containsSub (cs "[BUY]") text then cs "BUY"
  else if containsSub (cs "[SELL]") text then cs "SELL"
  else if containsSub (cs "[HOLD]") text then cs "HOLD"
  else
    match searchPat2 text with
    | some kw => kwChars kw
    | none =>
      match searchPat3 text with
      | some m => m.map Char.toUpper
      | none =>
        match searchPat4 text with
        | some kw => kwChars kw
        | none => cs "HOLD"


/-! ## Result storage (src/macd_trader/result_storage.py): data model -/

/-- JSON-representable values carried by analysis result dicts; the records the
program stores hold strings and numbers, which suffices for every claim. -/
inductive PyVal
  | str : List Char → PyVal
  | num : Int → PyVal
deriving DecidableEq

/-- A Python dict, modelled as an association list in insertion order. -/
def Dict := List (List Char × PyVal)

instance : DecidableEq Dict := by unfold Dict; infer_instance

/-- Insertion-order upsert: assigning to a present key replaces its value in
place, a new key is appended - Python dict assignment/merge semantics. -/
def alPut [DecidableEq κ] (l : List (κ × β)) (k : κ) (v : β) : List (κ × β) :=
  if l.any (fun p => decide (p.1 = k)) then
    l.map (fun p => if p.1 = k then (k, v) else p)
  else l ++ [(k, v)]

/-- Lookup in an association list (first occurrence). -/
def alGet [DecidableEq κ] (l : List (κ × β)) (k : κ) : Option β :=
  (l.find? (fun p => decide (p.1 = k))).map Prod.snd

/-- The metadata dict built by `save_result` before merging the caller's fields:
ticker, ISO date, and save timestamp (the latter passed in as a parameter). -/
def metaDict (ticker dateIso savedAt : List Char) : Dict :=
  [(cs "ticker", PyVal.str ticker),
   (cs "date", PyVal.str dateIso),
   (cs "saved_at", PyVal.str savedAt)]

/-- The record written to disk by `save_result` (lines 57-62): the dict literal
spreads `**result` after the metadata keys, so each caller-supplied pair is
upserted into the metadata dict in order. -/
def saveRecord (ticker : List Char) (result : Dict) (dateIso savedAt : List Char) :
    Dict :=
  result.foldl (fun d p => alPut d p.1 p.2) (metaDict ticker dateIso savedAt)

/-- `_sanitize_ticker`: replace every '.' with '_'. -/
def sanitizeTicker (ticker : List Char) : List Char :=
  ticker.map (fun c => if c = '.' then '_' else c)

/-- Proleptic Gregorian calendar date, the model of Python `datetime.date`. -/
structure Date where
  year : Nat
  month : Nat
  day : Nat
deriving DecidableEq

/-- Gregorian leap year. -/
def isLeap (y : Nat) : Bool := y % 4 = 0 && (y % 100 ≠ 0 || y % 400 = 0)

/-- Number of days in a month. -/
def daysInMonth (y m : Nat) : Nat :=
  if m = 2 then (if isLeap y then 29 else 28)
  else if m ∈ ([4, 6, 9, 11] : List Nat) then 30
  else 31

/-- Validity of a date as enforced by the `datetime.date` constructor. -/
def validDate (d : Date) : Bool :=
  1 ≤ d.year && d.year ≤ 9999 && 1 ≤ d.month && d.month ≤ 12 &&
  1 ≤ d.day && d.day ≤ daysInMonth d.year d.month

/-- Python `date.min`, 0001-01-01. -/
def dateMin : Date := ⟨1, 1, 1⟩

/-- Date order (lexicographic on year, month, day), Python date comparison. -/
def dateLePr (a b : Date) : Prop :=
  a.year < b.year ∨ (a.year = b.year ∧
    (a.month < b.month ∨ (a.month = b.month ∧ a.day ≤ b.day)))

instance : DecidableRel dateLePr := by unfold dateLePr; infer_instance

/-- The day before a date (calendar decrement). -/
def predDate (d : Date) : Date :=
  if 2 ≤ d.day then ⟨d.year, d.month, d.day - 1⟩
  else if 2 ≤ d.month then ⟨d.year, d.month - 1, daysInMonth d.year (d.month - 1)⟩
  else ⟨d.year - 1, 12, 31⟩

/-- `d - timedelta(days=n)` for n ≥ 0: n calendar decrements. -/
def subDays (d : Date) : Nat → Date
  | 0 => d
  | n + 1 => predDate (subDays d n)

/-- Digit character for a digit value (explicit table). -/
def digitChar : Nat → Char
  | 0 => '0' | 1 => '1' | 2 => '2' | 3 => '3' | 4 => '4'
  | 5 => '5' | 6 => '6' | 7 => '7' | 8 => '8' | _ => '9'

/-- Two-digit zero-padded decimal rendering. -/
def digits2 (n : Nat) : List Char := [digitChar (n / 10 % 10), digitChar (n % 10)]

/-- Four-digit zero-padded decimal rendering. -/
def digits4 (n : Nat) : List Char :=
  [digitChar (n / 1000 % 10), digitChar (n / 100 % 10),
   digitChar (n / 10 % 10), digitChar (n % 10)]

/-- `date.isoformat()`: zero-padded YYYY-MM-DD. -/
def isoChars (d : Date) : List Char :=
  digits4 d.year ++ '-' :: digits2 d.month ++ '-' :: digits2 d.day

/-- ASCII digit test. Python's int() also tolerates signs, surrounding
whitespace and non-ASCII digits; that laxity is not modelled - stems the
program itself writes are plain ASCII YYYY-MM-DD. -/
def isDigitB (c : Char) : Bool :=
  c ∈ ['0', '1', '2', '3', '4', '5', '6', '7', '8', '9']

/-- Value of an ASCII digit character. -/
def dVal (c : Char) : Nat := c.toNat - 48

/-- `date.fromisoformat` on a file stem: exactly the strict YYYY-MM-DD layout
accepted on the Python versions this code targets, followed by the date
constructor's validity check; anything else raises ValueError (modelled none). -/
def parseIso (l : List Char) : Option Date :=
  match l with
  | [y1, y2, y3, y4, h1, m1, m2, h2, d1, d2] =>
    if isDigitB y1 && isDigitB y2 && isDigitB y3 && isDigitB y4 &&
       h1 = '-' && isDigitB m1 && isDigitB m2 && h2 = '-' &&
       isDigitB d1 && isDigitB d2 then
      let d : Date := ⟨dVal y1 * 1000 + dVal y2 * 100 + dVal y3 * 10 + dVal y4,
                       dVal m1 * 10 + dVal m2, dVal d1 * 10 + dVal d2⟩
      if validDate d then some d else none
    else none
  | _ => none

/-- The on-disk store for one results root: an association from
(sanitized ticker, ISO date string) to the parsed JSON record of the file
results/(ticker)/(date).json. Directory creation is implicit. -/
def Store := List ((List Char × List Char) × Dict)

/-- Embedding of `save_result` (lines 28-68) as a state transformer on the
store; `result_date` and the `datetime.now()` timestamp are parameters.
Returns the new store and the path written. -/
def save_result (store : Store) (ticker : List Char) (result : Dict)
    (result_date : Date) (savedAt : List Char) : Store × List Char :=
  let safe := sanitizeTicker ticker
  let iso := isoChars result_date
  (alPut store (safe, iso) (saveRecord ticker result iso savedAt),
   safe ++ '/' :: iso ++ cs ".json")

/-- Embedding of `load_result` (lines 71-97): parsed JSON content of the file,
or none when the file does not exist. -/
def load_result (store : Store) (ticker : List Char) (result_date : Date) :
    Option Dict :=
  alGet store (sanitizeTicker ticker, isoChars result_date)


/-! ## Notification (src/macd_trader/notification.py) -/

/-- One per-stock result handed to the batch notifier; `name` is read with
`r.get('name', '')`, the other fields are required keys. -/
structure Report where
  ticker : List Char
  name : Option (List Char)
  decision : List Char
  report : List Char

/-- The 40-char separator line `'=' * 40`. -/
def sepLine : List Char := List.replicate 40 '='

/-- Embedding of `send_batch_notification` (lines 59-86). The outbound WeChat
call is an external collaborator passed in as `notifier`; the second component
of the result records the (subject, body) message handed to it, `none` when it
is never invoked. -/
def send_batch_notification (notifier : List Char → List Char → List Char)
    (reports : List Report) : List Char × Option (List Char × List Char) :=
  if reports.isEmpty then (cs "No reports to send.", none)
  else
    let decisions := reports.map (fun r => r.ticker ++ '[' :: r.decision ++ [']'])
    let subject := cs "每日投资分析 | " ++ List.intercalate [' '] decisions
    let bodyParts := reports.foldr (fun r acc =>
      sepLine ::
      (cs "📊 " ++ r.ticker ++ cs " - " ++ r.name.getD [] ++ cs " [" ++
        r.decision ++ [']']) ::
      sepLine :: r.report :: [] :: acc) []
    let body := List.intercalate ['\n'] bodyParts
    (notifier subject body, some (subject, body))


/-! ## MACD tools (src/macd_trader/tools/yfinance_tools.py, longbridge_tools.py)

The numeric type: the source computes on float64 series; the model uses exact
unnormalized fractions (kernel-evaluable), and models a missing value (NaN from
insufficient EMA warm-up, the only NaN source here) as `none`. -/

/-- Exact fraction, unnormalized; stands in for the float values of the source. -/
structure Frac where
  num : Int
  den : Int
deriving DecidableEq

def Frac.add (a b : Frac) : Frac := ⟨a.num * b.den + b.num * a.den, a.den * b.den⟩

def Frac.sub (a b : Frac) : Frac := ⟨a.num * b.den - b.num * a.den, a.den * b.den⟩

def Frac.mul (a b : Frac) : Frac := ⟨a.num * b.num, a.den * b.den⟩

def Frac.div (a b : Frac) : Frac := ⟨a.num * b.den, a.den * b.num⟩

/-- Missing-value subtraction: NaN propagates. -/
def optSub : Option Frac → Option Frac → Option Frac
  | some a, some b => some (Frac.sub a b)
  | _, _ => none

/-- `series.ewm(span, min_periods, adjust=False).mean()` as used by ta's `_ema`:
the recursion y = (1-alpha)*y + alpha*x starts at the first present value,
missing inputs carry the statistic forward, and the output is masked to `none`
until `minp` present observations have been seen. The state is the current mean
and the count of present observations. (With `adjust=False` and the series used
here - gaps only at the head - this is exactly pandas' semantics.) -/
def ewmAux (al : Frac) (minp : Nat) :
    Option (Frac × Nat) → List (Option Frac) → List (Option Frac)
  | _, [] => []
  | none, none :: rest => none :: ewmAux al minp none rest
  | some (y, cnt), none :: rest =>
    (if minp ≤ cnt then some y else none) :: ewmAux al minp (some (y, cnt)) rest
  | none, some v :: rest =>
    (if minp ≤ 1 then some v else none) :: ewmAux al minp (some (v, 1)) rest
  | some (y, cnt), some v :: rest =>
    let y2 := Frac.add (Frac.mul (Frac.sub ⟨1, 1⟩ al) y) (Frac.mul al v)
    (if minp ≤ cnt + 1 then some y2 else none) :: ewmAux al minp (some (y2, cnt + 1)) rest

/-- ta's `_ema(series, periods, fillna=False)`:
`ewm(span=periods, min_periods=periods, adjust=False).mean()`, alpha = 2/(span+1). -/
def emaSpan (span : Nat) (xs : List (Option Frac)) : List (Option Frac) :=
  ewmAux (Frac.div ⟨2, 1⟩ ⟨(span : Int) + 1, 1⟩) span none xs

/-- ta `MACD.macd()` with defaults (12, 26): fast EMA minus slow EMA. -/
def macdLine (closes : List Frac) : List (Option Frac) :=
  List.zipWith optSub (emaSpan 12 (closes.map some)) (emaSpan 26 (closes.map some))

/-- ta `MACD.macd_signal()` with default 9: EMA of the MACD line. -/
def signalLine (closes : List Frac) : List (Option Frac) :=
  emaSpan 9 (macdLine closes)

/-- ta `MACD.macd_diff()`: histogram, MACD line minus signal line. -/
def histLine (closes : List Frac) : List (Option Frac) :=
  List.zipWith optSub (macdLine closes) (signalLine closes)

/-- One row of the indicator DataFrame handed back by the tools
(timestamp, Close, MACD, MACD_Signal, MACD_Hist). -/
structure MacdRow where
  timestamp : Nat
  close : Frac
  macd : Option Frac
  signal : Option Frac
  hist : Option Frac
deriving DecidableEq

/-- A row with all three indicator columns present (not NaN). -/
def rowDefined (r : MacdRow) : Bool :=
  r.macd.isSome && r.signal.isSome && r.hist.isSome

/-- The indicator DataFrame built by both tools from a fetched price series. -/
def macdTable (series : List (Nat × Frac)) : List MacdRow :=
  let closes := series.map Prod.snd
  let m := macdLine closes
  let s := signalLine closes
  let h := histLine closes
  (series.zip (m.zip (s.zip h))).map
    (fun q => ⟨q.1.1, q.1.2, q.2.1, q.2.2.1, q.2.2.2⟩)

/-- The error-string returns of the tools, as tags. -/
inductive MacdErr | noData | insufficientData
deriving DecidableEq

/-- `YFinanceMACDTool.get_macd` (yfinance_tools.py lines 107-170): empty fetch
is an error; a NaN latest MACD or signal value is an error; otherwise the rows
with any NaN among MACD/MACD_Signal/MACD_Hist are dropped (`dropna(subset=...)`)
and the remaining records are returned. -/
def yf_get_macd (series : List (Nat × Frac)) : Except MacdErr (List MacdRow) :=
  if series.isEmpty then .error .noData
  else
    let table := macdTable series
    match table.getLast? with
    | some last =>
      if last.macd.isSome && last.signal.isSome then
        .ok (table.filter rowDefined)
      else .error .insufficientData
    | none => .error .insufficientData

/-- `LongBridgeMACDTool.get_macd` (longbridge_tools.py lines 50-99): same
checks, but `hist.to_dict(orient="records")` returns every row - there is no
`dropna`, so warm-up rows with NaN indicator values are included. -/
def lb_get_macd (series : List (Nat × Frac)) : Except MacdErr (List MacdRow) :=
  if series.isEmpty then .error .noData
  else
    let table := macdTable series
    match table.getLast? with
    | some last =>
      if last.macd.isSome && last.signal.isSome then
        .ok table
      else .error .insufficientData
    | none => .error .insufficientData

/-- A 35-day constant price series (35 = slow + signal), long enough for every
indicator to be defined at the latest row. -/
def demoSeries35 : List (Nat × Frac) := (List.range 35).map (fun i => (i, ⟨1, 1⟩))


/-! ## History loading (result_storage.py, load_history) -/

/-- Code-point lexicographic string order, Python's `str` comparison used by
`sorted()` on the globbed file paths. -/
def lexLe : List Char → List Char → Bool
  | [], _ => true
  | _ :: _, [] => false
  | a :: as, b :: bs =>
    if a.toNat < b.toNat then true
    else if b.toNat < a.toNat then false
    else lexLe as bs

/-- One `*.json` file of a ticker directory: the stem (file name without the
`.json` suffix) and the parsed JSON content, `none` when the file is not valid
JSON (json.load raises JSONDecodeError). -/
structure DEntry where
  stem : List Char
  content : Option Dict

/-- The file name the glob sees; `sorted()` compares these. -/
def entKey (e : DEntry) : List Char := e.stem ++ cs ".json"

/-- Sort order of the directory scan. -/
def entLe (a b : DEntry) : Prop := lexLe (entKey a) (entKey b) = true

instance : DecidableRel entLe := fun a b => by unfold entLe; infer_instance

instance : IsTotal DEntry entLe := by
  constructor
  have tot : ∀ x y : List Char, lexLe x y = true ∨ lexLe y x = true := by
    intro x
    induction x with
    | nil => intro y; left; rfl
    | cons a as ih =>
      intro y
      cases y with
      | nil => right; rfl
      | cons b bs =>
        by_cases hab : a.toNat < b.toNat
        · left; simp [lexLe, hab]
        · by_cases hba : b.toNat < a.toNat
          · right; simp [lexLe, hba]
          · rcases ih bs with h | h
            · left; simp [lexLe, hab, hba, h]
            · right; simp [lexLe, hab, hba, h]
  intro a b
  exact tot (entKey a) (entKey b)

instance : IsTrans DEntry entLe := by
  constructor
  have tr : ∀ x y z : List Char,
      lexLe x y = true → lexLe y z = true → lexLe x z = true := by
    intro x
    induction x with
    | nil => intro y z _ _; rfl
    | cons a as ih =>
      intro y z hxy hyz
      cases y with
      | nil => simp [lexLe] at hxy
      | cons b bs =>
        cases z with
        | nil => simp [lexLe] at hyz
        | cons c cs2 =>
          simp only [lexLe] at hxy hyz ⊢
          by_cases hab : a.toNat < b.toNat
          · by_cases hbc : b.toNat < c.toNat
            · rw [if_pos (by omega)]
            · rw [if_neg hbc] at hyz
              by_cases hcb : c.toNat < b.toNat
              · rw [if_pos hcb] at hyz; cases hyz
              · rw [if_neg hcb] at hyz
                rw [if_pos (by omega)]
          · rw [if_neg hab] at hxy
            by_cases hba : b.toNat < a.toNat
            · rw [if_pos hba] at hxy; cases hxy
            · rw [if_neg hba] at hxy
              by_cases hbc : b.toNat < c.toNat
              · rw [if_pos (by omega)]
              · rw [if_neg hbc] at hyz
                by_cases hcb : c.toNat < b.toNat
                · rw [if_pos hcb] at hyz; cases hyz
                · rw [if_neg hcb] at hyz
                  rw [if_neg (by omega), if_neg (by omega)]
                  exact ih bs cs2 hxy hyz
  intro a b c
  exact tr (entKey a) (entKey b) (entKey c)

/-- A scanning-relevant file: stem parses as a date and content parses as JSON. -/
def wellFormedEntry (ent : DEntry) : Bool :=
  (parseIso ent.stem).isSome && ent.content.isSome

/-- The loop body of the range scan for one file: parse the stem as a date
(ValueError skips the file), check the inclusive window, then take the parsed
JSON content (JSONDecodeError skips the file). -/
def scanEntry (s e : Date) (ent : DEntry) : Option Dict :=
  match parseIso ent.stem with
  | some fd => if dateLePr s fd ∧ dateLePr fd e then ent.content else none
  | none => none

/-- Embedding of `load_history` (lines 100-151). The directory is `none` when
the ticker has no storage directory. The scan sorts the `*.json` files by name
(a stable sort models Python's `sorted`) and runs `scanEntry` over them.
`last_n_days`, when given, overrides any explicit bounds with
[today - last_n_days, today]; otherwise the end defaults to today and the
start to `date.min`. -/
def load_history (dir : Option (List DEntry)) (start_date end_date : Option Date)
    (last_n_days : Option Nat) (today : Date) : List Dict :=
  match dir with
  | none => []
  | some entries =>
    let se : Date × Date :=
      match last_n_days with
      | some n => (subDays today n, today)
      | none => (start_date.getD dateMin, end_date.getD today)
    (List.insertionSort entLe entries).filterMap (scanEntry se.1 se.2)

/-- `scanEntry` keeping the file date alongside the record. -/
def selEntry (s e : Date) (ent : DEntry) : Option (Date × Dict) :=
  match parseIso ent.stem with
  | some fd =>
    if dateLePr s fd ∧ dateLePr fd e then ent.content.map (fun c => (fd, c))
    else none
  | none => none

/-- The records selected by a range scan, paired with their file dates; the
scan of `load_history` is the second projection of this list. -/
def selectInRange (entries : List DEntry) (s e : Date) : List (Date × Dict) :=
  (List.insertionSort entLe entries).filterMap (selEntry s e)

/-! ## Lemmas about the extractor -/

theorem searchWith_eq_some {m : List Char → Option α} {l : List Char} {r : α}
    (h : searchWith m l = some r) : ∃ s, m s = some r := by
  induction l with
  | nil => exact ⟨[], h⟩
  | cons c rest ih =>
    rw [searchWith] at h
    cases hm : m (c :: rest) with
    | some v => rw [hm] at h; exact ⟨c :: rest, hm.trans h⟩
    | none => rw [hm] at h; exact ih h

theorem charCIEq_elim {p c : Char} (h : charCIEq p c = true) :
    c = p ∨ c = swapAscii p := by
  simpa [charCIEq] using h

theorem stripCILit_forall2 {pat s : List Char} {m r : List Char}
    (h : stripCILit pat s = some (m, r)) :
    List.Forall₂ (fun p c => charCIEq p c = true) pat m := by
  induction pat generalizing s m with
  | nil =>
    rw [stripCILit] at h
    cases h
    exact .nil
  | cons p ps ih =>
    cases s with
    | nil => rw [stripCILit] at h; cases h
    | cons c rest =>
      rw [stripCILit] at h
      by_cases hc : charCIEq p c = true
      · rw [if_pos hc] at h
        cases hm : stripCILit ps rest with
        | none => rw [hm] at h; cases h
        | some pr =>
          rw [hm, Option.map_some'] at h
          cases h
          exact .cons hc (ih hm)
      · rw [if_neg hc] at h; cases h

theorem matchKwCIAt_upper {s : List Char} {m r : List Char}
    (h : matchKwCIAt s = some (m, r)) :
    m.map Char.toUpper = cs "BUY" ∨ m.map Char.toUpper = cs "SELL" ∨
      m.map Char.toUpper = cs "HOLD" := by
  rw [matchKwCIAt] at h
  cases h1 : stripCILit (cs "BUY") s with
  | some pr =>
    rw [h1] at h
    cases h
    left
    have hf := stripCILit_forall2 h1
    cases hf with
    | cons h1' hf =>
      cases hf with
      | cons h2' hf =>
        cases hf with
        | cons h3' hf =>
          cases hf
          rcases charCIEq_elim h1' with rfl | rfl <;>
            rcases charCIEq_elim h2' with rfl | rfl <;>
              rcases charCIEq_elim h3' with rfl | rfl <;> decide
  | none =>
    rw [h1] at h
    cases h2 : stripCILit (cs "SELL") s with
    | some pr =>
      rw [h2] at h
      cases h
      right; left
      have hf := stripCILit_forall2 h2
      cases hf with
      | cons h1' hf =>
        cases hf with
        | cons h2' hf =>
          cases hf with
          | cons h3' hf =>
            cases hf with
            | cons h4' hf =>
              cases hf
              rcases charCIEq_elim h1' with rfl | rfl <;>
                rcases charCIEq_elim h2' with rfl | rfl <;>
                  rcases charCIEq_elim h3' with rfl | rfl <;>
                    rcases charCIEq_elim h4' with rfl | rfl <;> decide
    | none =>
      rw [h2] at h
      cases h3 : stripCILit (cs "HOLD") s with
      | some pr =>
        rw [h3] at h
        cases h
        right; right
        have hf := stripCILit_forall2 h3
        cases hf with
        | cons h1' hf =>
          cases hf with
          | cons h2' hf =>
            cases hf with
            | cons h3' hf =>
              cases hf with
              | cons h4' hf =>
                cases hf
                rcases charCIEq_elim h1' with rfl | rfl <;>
                  rcases charCIEq_elim h2' with rfl | rfl <;>
                    rcases charCIEq_elim h3' with rfl | rfl <;>
                      rcases charCIEq_elim h4' with rfl | rfl <;> decide
      | none => rw [h3] at h; cases h

theorem matchP3At_upper {s : List Char} {m : List Char}
    (h : matchP3At s = some m) :
    m.map Char.toUpper = cs "BUY" ∨ m.map Char.toUpper = cs "SELL" ∨
      m.map Char.toUpper = cs "HOLD" := by
  rw [matchP3At] at h
  cases h0 : stripCILit (cs "decision") s with
  | none => rw [h0] at h; cases h
  | some pr =>
    rw [h0, Option.some_bind] at h
    cases hd : pr.2.dropWhile isPySpace with
    | nil => rw [hd] at h; cases h
    | cons c s3 =>
      rw [hd] at h
      replace h : (if mojibakeColon c = true then
          Option.map (fun mr => mr.1) (matchKwCIAt (s3.dropWhile isPySpace))
        else none) = some m := h
      by_cases hm : mojibakeColon c = true
      · rw [if_pos hm] at h
        cases hk : matchKwCIAt (s3.dropWhile isPySpace) with
        | none => rw [hk] at h; cases h
        | some mr =>
          rw [hk, Option.map_some'] at h
          cases h
          exact matchKwCIAt_upper hk
      · rw [if_neg hm] at h; cases h

/-! ## Claim theorems for the decision extractor -/

/-- C3: extract_decision_from_result is total - for every input string it returns
exactly one of BUY, SELL, HOLD - and it returns HOLD whenever no pattern matches
(the source's `try/except` has nothing to catch in the model, matching is total). -/
theorem C3_extract_decision_total (text : List Char) :
    (extract_decision_from_result text = cs "BUY" ∨
     extract_decision_from_result text = cs "SELL" ∨
     extract_decision_from_result text = cs "HOLD") ∧
    (containsSub (cs "[BUY]") text = false → containsSub (cs "[SELL]") text = false →
     containsSub (cs "[HOLD]") text = false → searchPat2 text = none →
     searchPat3 text = none → searchPat4 text = none →
     extract_decision_from_result text = cs "HOLD") := by
  constructor
  · unfold extract_decision_from_result
    split
    · exact Or.inl rfl
    · split
      · exact Or.inr (Or.inl rfl)
      · split
        · exact Or.inr (Or.inr rfl)
        · cases h2 : searchPat2 text with
          | some kw => cases kw <;> simp [kwChars]
          | none =>
            cases h3 : searchPat3 text with
            | some m =>
              obtain ⟨s, hs⟩ := searchWith_eq_some h3
              exact matchP3At_upper hs
            | none =>
              cases h4 : searchPat4 text with
              | some kw => cases kw <;> simp [kwChars]
              | none => simp
  · intro h1 h2 h3 h4 h5 h6
    simp [extract_decision_from_result, h1, h2, h3, h4, h5, h6]

/-- C3 witness: a concrete input matching no pattern, on which the default HOLD
branch is taken. -/
theorem C3_extract_decision_total_witness :
    (containsSub (cs "[BUY]") (cs "xyz") = false ∧
     containsSub (cs "[SELL]") (cs "xyz") = false ∧
     containsSub (cs "[HOLD]") (cs "xyz") = false ∧
     searchPat2 (cs "xyz") = none ∧ searchPat3 (cs "xyz") = none ∧
     searchPat4 (cs "xyz") = none) ∧
    extract_decision_from_result (cs "xyz") = cs "HOLD" :=
  ⟨by decide, (C3_extract_decision_total (cs "xyz")).2 (by decide) (by decide)
    (by decide) (by decide) (by decide) (by decide)⟩

/-- C4 counterexample: the claim as stated fails - the text "[BUY] [SELL]"
contains the exact substring [SELL], yet the function returns BUY, because the
bracket loop checks BUY before SELL. -/
theorem C4_counterexample :
    containsSub (cs "[SELL]") (cs "[BUY] [SELL]") = true ∧
    extract_decision_from_result (cs "[BUY] [SELL]") = cs "BUY" ∧
    extract_decision_from_result (cs "[BUY] [SELL]") ≠ cs "SELL" := by
  decide

/-- C4 (amended): for every input string that contains the exact substring [SELL]
and does not contain [BUY], extract_decision_from_result returns SELL, regardless
of any other keyword occurrences elsewhere in the text. -/
theorem C4_sell_tag_amended (text : List Char)
    (hS : containsSub (cs "[SELL]") text = true)
    (hB : containsSub (cs "[BUY]") text = false) :
    extract_decision_from_result text = cs "SELL" := by
  simp [extract_decision_from_result, hS, hB]

/-- C4 witness: the amended theorem applied to a concrete input that also has
keyword occurrences elsewhere. -/
theorem C4_sell_tag_amended_witness :
    (containsSub (cs "[SELL]") (cs "[HOLD] then [SELL], maybe BUY") = true ∧
     containsSub (cs "[BUY]") (cs "[HOLD] then [SELL], maybe BUY") = false) ∧
    extract_decision_from_result (cs "[HOLD] then [SELL], maybe BUY") = cs "SELL" :=
  ⟨by decide, C4_sell_tag_amended (cs "[HOLD] then [SELL], maybe BUY")
    (by decide) (by decide)⟩

/-- C5: code bug - the source intends a full-width colon (U+FF1A) variant in
pattern 3, but the file's bytes hold its mojibake (U+00EF, U+00BC, U+0161), so
an input with a real full-width colon and a lower-case keyword is not matched by
the labeled pattern and falls through to HOLD; the mojibake characters match
instead. This theorem evaluates the code at the failing input. -/
theorem C5_fullwidth_colon_code_bug :
    extract_decision_from_result (cs "decision：buy") = cs "HOLD" ∧
    searchPat3 (cs "decision：buy") = none ∧
    extract_decision_from_result (cs "decisionïbuy") = cs "BUY" := by
  decide

/-- C10: among bracketed tags the loop order fixes the priority BUY, SELL, HOLD
independent of position: any text with [BUY] yields BUY, and any text containing
both [HOLD] and [SELL] but no [BUY] yields SELL even when [HOLD] occurs first. -/
theorem C10_bracket_priority (text : List Char) :
    (containsSub (cs "[BUY]") text = true →
      extract_decision_from_result text = cs "BUY") ∧
    (containsSub (cs "[BUY]") text = false →
     containsSub (cs "[HOLD]") text = true →
     containsSub (cs "[SELL]") text = true →
      extract_decision_from_result text = cs "SELL") := by
  constructor
  · intro hB
    simp [extract_decision_from_result, hB]
  · intro hB hH hS
    simp [extract_decision_from_result, hB, hS]

/-- C10 witness: concrete inputs - [HOLD] occurring before [SELL] still yields
SELL, and a text with [BUY] in last position still yields BUY. -/
theorem C10_bracket_priority_witness :
    extract_decision_from_result (cs "[HOLD] first, later [SELL]") = cs "SELL" ∧
    extract_decision_from_result (cs "[HOLD] [SELL] [BUY]") = cs "BUY" :=
  ⟨(C10_bracket_priority (cs "[HOLD] first, later [SELL]")).2 (by decide)
      (by decide) (by decide),
   (C10_bracket_priority (cs "[HOLD] [SELL] [BUY]")).1 (by decide)⟩

/-! ## Lemmas about association-list stores -/

theorem alGet_cons [DecidableEq κ] (p : κ × β) (l : List (κ × β)) (k : κ) :
    alGet (p :: l) k = if p.1 = k then some p.2 else alGet l k := by
  by_cases h : p.1 = k <;> simp [alGet, List.find?, h]

theorem alGet_eq_none_of_not_mem [DecidableEq κ] {l : List (κ × β)} {k : κ}
    (h : k ∉ l.map Prod.fst) : alGet l k = none := by
  induction l with
  | nil => simp [alGet, List.find?]
  | cons p rest ih =>
    simp only [List.map_cons, List.mem_cons] at h
    push_neg at h
    rw [alGet_cons, if_neg (fun hc => h.1 hc.symm)]
    exact ih h.2

theorem find_map_replace [DecidableEq κ] {l : List (κ × β)} {k : κ} (v : β)
    (ha : l.any (fun p => decide (p.1 = k)) = true) :
    (l.map (fun p => if p.1 = k then (k, v) else p)).find?
      (fun p => decide (p.1 = k)) = some (k, v) := by
  induction l with
  | nil => cases ha
  | cons p rest ih =>
    by_cases hp : p.1 = k
    · simp [List.find?, hp]
    · simp only [List.any_cons, decide_eq_true_eq, Bool.or_eq_true] at ha
      rcases ha with ha | ha
      · exact absurd ha hp
      · simp only [List.map_cons, if_neg hp, List.find?]
        rw [decide_eq_false hp]
        exact ih ha

theorem find_map_replace_other [DecidableEq κ] {l : List (κ × β)} {k k' : κ} (v : β)
    (hk : k' ≠ k) :
    (l.map (fun p => if p.1 = k then (k, v) else p)).find?
      (fun p => decide (p.1 = k')) = l.find? (fun p => decide (p.1 = k')) := by
  induction l with
  | nil => rfl
  | cons p rest ih =>
    by_cases hp : p.1 = k
    · have h1 : (k : κ) ≠ k' := fun hc => hk hc.symm
      have h2 : p.1 ≠ k' := by rw [hp]; exact h1
      simp only [List.map_cons, if_pos hp, List.find?]
      rw [decide_eq_false h1, decide_eq_false h2]
      exact ih
    · simp only [List.map_cons, if_neg hp, List.find?]
      by_cases hq : p.1 = k'
      · rw [decide_eq_true hq]
      · rw [decide_eq_false hq]
        exact ih

theorem alGet_put_same [DecidableEq κ] (l : List (κ × β)) (k : κ) (v : β) :
    alGet (alPut l k v) k = some v := by
  unfold alPut
  by_cases ha : l.any (fun p => decide (p.1 = k)) = true
  · rw [if_pos ha]
    unfold alGet
    rw [find_map_replace v ha]
    rfl
  · rw [if_neg ha]
    induction l with
    | nil => simp [alGet, List.find?]
    | cons p rest ih =>
      simp only [List.any_cons, Bool.or_eq_true, decide_eq_true_eq] at ha
      push_neg at ha
      rw [List.cons_append, alGet_cons, if_neg ha.1]
      exact ih (by simpa using ha.2)

theorem alGet_put_other [DecidableEq κ] (l : List (κ × β)) (k k' : κ) (v : β)
    (hk : k' ≠ k) : alGet (alPut l k v) k' = alGet l k' := by
  unfold alPut
  by_cases ha : l.any (fun p => decide (p.1 = k)) = true
  · rw [if_pos ha]
    unfold alGet
    rw [find_map_replace_other v hk]
  · rw [if_neg ha]
    induction l with
    | nil =>
      have hne : (k : κ) ≠ k' := fun h => hk h.symm
      rw [List.nil_append, alGet_cons, if_neg hne]
    | cons p rest ih =>
      rw [List.cons_append, alGet_cons, alGet_cons]
      by_cases hp : p.1 = k'
      · rw [if_pos hp, if_pos hp]
      · rw [if_neg hp, if_neg hp]
        exact ih (by simp only [List.any_cons, Bool.or_eq_true] at ha; push_neg at ha; simpa using ha.2)

theorem alGet_foldl_put [DecidableEq κ] (res : List (κ × β)) (d : List (κ × β))
    (k : κ) (hnd : (res.map Prod.fst).Nodup) :
    alGet (res.foldl (fun acc p => alPut acc p.1 p.2) d) k =
      match alGet res k with
      | some v => some v
      | none => alGet d k := by
  induction res generalizing d with
  | nil => simp [alGet, List.find?]
  | cons p rest ih =>
    simp only [List.map_cons, List.nodup_cons] at hnd
    rw [List.foldl_cons, ih _ hnd.2]
    by_cases hk : k = p.1
    · have hrest : alGet rest k = none := by
        rw [hk]; exact alGet_eq_none_of_not_mem hnd.1
      rw [hrest]
      show alGet (alPut d p.1 p.2) k = match alGet (p :: rest) k with
        | some v => some v
        | none => alGet d k
      rw [alGet_cons, if_pos hk.symm]
      show alGet (alPut d p.1 p.2) k = some p.2
      rw [hk]
      exact alGet_put_same d p.1 p.2
    · rw [alGet_put_other _ _ _ _ hk, alGet_cons, if_neg (fun hc => hk hc.symm)]

/-! ## Claim theorems for result storage: save/load -/

/-- C1 counterexample: the claim as stated fails - the dict literal spreads
`**result` after the metadata keys, so a caller-supplied ticker entry replaces
the metadata ticker in the stored record. -/
theorem C1_counterexample :
    alGet (saveRecord (cs "NVDA.US") [(cs "ticker", PyVal.str (cs "EVIL"))]
        (cs "2025-10-12") (cs "2025-10-12T08:00:00")) (cs "ticker")
      = some (PyVal.str (cs "EVIL")) ∧
    some (PyVal.str (cs "EVIL")) ≠ some (PyVal.str (cs "NVDA.US")) := by
  decide

/-- C1 (amended): the record written by save is the ticker/date/savedAt metadata
merged with the caller-supplied fields, where the caller-supplied value wins on
every key collision - including the keys ticker and date (and saved_at);
a metadata value survives only for keys absent from the result dict. -/
theorem C1_save_merge_amended (ticker : List Char) (result : Dict)
    (dateIso savedAt k : List Char) (hnd : (result.map Prod.fst).Nodup) :
    alGet (saveRecord ticker result dateIso savedAt) k =
      match alGet result k with
      | some v => some v
      | none => alGet (metaDict ticker dateIso savedAt) k := by
  have base := alGet_foldl_put result (metaDict ticker dateIso savedAt) k hnd
  unfold saveRecord
  cases h : alGet result k with
  | some v => rw [h] at base; exact base
  | none => rw [h] at base; exact base

/-- C1 witness: a concrete result dict with a colliding ticker key and a fresh
key; the merged record takes the caller's ticker and the metadata date. -/
theorem C1_save_merge_amended_witness :
    (([(cs "ticker", PyVal.str (cs "X")), (cs "decision", PyVal.str (cs "HOLD"))].map
        (Prod.fst (β := PyVal))).Nodup) ∧
    alGet (saveRecord (cs "NVDA.US")
        [(cs "ticker", PyVal.str (cs "X")), (cs "decision", PyVal.str (cs "HOLD"))]
        (cs "2025-10-12") (cs "T")) (cs "ticker")
      = match alGet ([(cs "ticker", PyVal.str (cs "X")),
          (cs "decision", PyVal.str (cs "HOLD"))] : Dict) (cs "ticker") with
        | some v => some v
        | none => alGet (metaDict (cs "NVDA.US") (cs "2025-10-12") (cs "T")) (cs "ticker") :=
  ⟨by decide, C1_save_merge_amended (cs "NVDA.US")
    [(cs "ticker", PyVal.str (cs "X")), (cs "decision", PyVal.str (cs "HOLD"))]
    (cs "2025-10-12") (cs "T") (cs "ticker") (by decide)⟩

/-- C2: last-write-wins and round-trip - saving twice for the same (ticker, date)
then loading yields exactly the second content merged with its metadata, and in
general a load straight after a save returns the record just written. -/
theorem C2_save_load_roundtrip (store : Store) (ticker : List Char) (A B : Dict)
    (d : Date) (nA nB : List Char) :
    load_result (save_result (save_result store ticker A d nA).1 ticker B d nB).1
        ticker d = some (saveRecord ticker B (isoChars d) nB) ∧
    ∀ (R : Dict) (n : List Char),
      load_result (save_result store ticker R d n).1 ticker d
        = some (saveRecord ticker R (isoChars d) n) := by
  refine ⟨?_, fun R n => ?_⟩ <;>
    simp only [save_result, load_result] <;>
    exact alGet_put_same _ _ _

/-- C9: on the empty result sequence the batch notifier returns the explicit
"nothing to send" status, builds no subject or body, and never invokes the
outbound notifier collaborator (the result does not depend on it and records
that no message was handed over). -/
theorem C9_empty_batch (notifier : List Char → List Char → List Char) :
    send_batch_notification notifier [] = (cs "No reports to send.", none) := rfl

/-! ## Claim theorem for the MACD tools -/

theorem macdTable_cons (p : Nat × Frac) (rest : List (Nat × Frac)) :
    ∃ tr, macdTable (p :: rest) = ⟨p.1, p.2, none, none, none⟩ :: tr := by
  simp only [macdTable, macdLine, signalLine, histLine, emaSpan, List.map_cons,
    ewmAux, List.zipWith_cons_cons, List.zip_cons_cons, optSub]
  norm_num [ewmAux]

/-- C8: code bug - the claim (no partial or NaN indicator rows ever reach the
caller) holds for YFinanceMACDTool.get_macd, whose dropna excludes every row
with an undefined MACD/signal/histogram value, but fails for
LongBridgeMACDTool.get_macd, which returns every DataFrame row: whenever it
succeeds, its first returned row has an undefined (NaN) MACD value, and on a
35-day series it returns 35 rows of which 33 are partial, while the YFinance
tool returns only the 2 fully defined rows. -/
theorem C8_nan_rows_code_bug :
    (∀ series : List (Nat × Frac),
      ((yf_get_macd series).toOption.getD []).all rowDefined = true) ∧
    (∀ series : List (Nat × Frac),
      (((lb_get_macd series).toOption.getD []).take 1).all
        (fun r => r.macd.isNone) = true) ∧
    ((lb_get_macd demoSeries35).toOption.getD []).length = 35 ∧
    (((lb_get_macd demoSeries35).toOption.getD []).filter
      (fun r => !rowDefined r)).length = 33 ∧
    ((yf_get_macd demoSeries35).toOption.getD []).length = 2 := by
  refine ⟨?_, ?_, by decide, by decide, by decide⟩
  · intro series
    by_cases he : series.isEmpty
    · simp [yf_get_macd, he, Except.toOption]
    · cases hl : (macdTable series).getLast? with
      | none => simp [yf_get_macd, he, hl, Except.toOption]
      | some last =>
        by_cases hc : last.macd.isSome = true ∧ last.signal.isSome = true
        · simp only [yf_get_macd, he, hl, hc, if_false, if_true, and_self,
            Bool.false_eq_true, ite_false, ite_true, Except.toOption, Option.getD]
          rw [List.all_eq_true]
          intro r hr
          exact (List.mem_filter.mp hr).2
        · simp [yf_get_macd, he, hl, hc, Except.toOption]
  · intro series
    cases series with
    | nil => simp [lb_get_macd, Except.toOption]
    | cons p rest =>
      cases hl : (macdTable (p :: rest)).getLast? with
      | none => simp [lb_get_macd, hl, Except.toOption]
      | some last =>
        by_cases hc : last.macd.isSome = true ∧ last.signal.isSome = true
        · obtain ⟨tr, htr⟩ := macdTable_cons p rest
          simp only [lb_get_macd, List.isEmpty_cons, hl, hc, if_false, if_true,
            and_self, Bool.false_eq_true, ite_false, ite_true, Except.toOption,
            Option.getD]
          rw [htr]
          simp
        · simp [lb_get_macd, hl, hc, Except.toOption]

/-! ## Lemmas: lexicographic order of ISO date file names -/

theorem lexLe_cons_self (c : Char) (u v : List Char) :
    lexLe (c :: u) (c :: v) = lexLe u v := by
  simp [lexLe]

theorem lexLe_cons_lt {a b : Char} (h : a.toNat < b.toNat) (u v : List Char) :
    lexLe (a :: u) (b :: v) = true := by
  simp [lexLe, h]

theorem lexLe_cons_gt {a b : Char} (h : b.toNat < a.toNat) (u v : List Char) :
    lexLe (a :: u) (b :: v) = false := by
  simp only [lexLe]
  rw [if_neg (by omega), if_pos h]

theorem lexLe_append_left_cancel (c u v : List Char) :
    lexLe (c ++ u) (c ++ v) = lexLe u v := by
  induction c with
  | nil => rfl
  | cons x xs ih => rw [List.cons_append, List.cons_append, lexLe_cons_self, ih]

theorem digitChar_toNat : ∀ a < 10, (digitChar a).toNat = 48 + a := by decide

theorem digits2_append_lt {n n' : Nat} (h : n < n') (h2 : n' ≤ 99)
    (u v : List Char) : lexLe (digits2 n ++ u) (digits2 n' ++ v) = true := by
  have hm1 : n / 10 % 10 = n / 10 := by omega
  have hm2 : n' / 10 % 10 = n' / 10 := by omega
  rcases Nat.lt_trichotomy (n / 10) (n' / 10) with hq | hq | hq
  · have hc : (digitChar (n / 10 % 10)).toNat < (digitChar (n' / 10 % 10)).toNat := by
      rw [digitChar_toNat _ (by omega), digitChar_toNat _ (by omega)]
      omega
    simp only [digits2, List.cons_append, List.nil_append]
    exact lexLe_cons_lt hc _ _
  · have hr : n % 10 < n' % 10 := by omega
    have hc : (digitChar (n % 10)).toNat < (digitChar (n' % 10)).toNat := by
      rw [digitChar_toNat _ (by omega), digitChar_toNat _ (by omega)]
      omega
    simp only [digits2, List.cons_append, List.nil_append]
    rw [show n / 10 % 10 = n' / 10 % 10 from by omega, lexLe_cons_self]
    exact lexLe_cons_lt hc _ _
  · omega

theorem digits2_append_gt {n n' : Nat} (h : n' < n) (h2 : n ≤ 99)
    (u v : List Char) : lexLe (digits2 n ++ u) (digits2 n' ++ v) = false := by
  rcases Nat.lt_trichotomy (n' / 10) (n / 10) with hq | hq | hq
  · have hc : (digitChar (n' / 10 % 10)).toNat < (digitChar (n / 10 % 10)).toNat := by
      rw [digitChar_toNat _ (by omega), digitChar_toNat _ (by omega)]
      omega
    simp only [digits2, List.cons_append, List.nil_append]
    exact lexLe_cons_gt hc _ _
  · have hr : n' % 10 < n % 10 := by omega
    have hc : (digitChar (n' % 10)).toNat < (digitChar (n % 10)).toNat := by
      rw [digitChar_toNat _ (by omega), digitChar_toNat _ (by omega)]
      omega
    simp only [digits2, List.cons_append, List.nil_append]
    rw [show n / 10 % 10 = n' / 10 % 10 from by omega, lexLe_cons_self]
    exact lexLe_cons_gt hc _ _
  · omega

theorem digits4_eq_pair (y : Nat) :
    digits4 y = digits2 (y / 100) ++ digits2 (y % 100) := by
  simp only [digits4, digits2, List.cons_append, List.nil_append]
  rw [show y / 100 / 10 % 10 = y / 1000 % 10 from by omega,
    show y % 100 / 10 % 10 = y / 10 % 10 from by omega,
    show y % 100 % 10 = y % 10 from by omega]

theorem isoChars_append (d : Date) (w : List Char) :
    isoChars d ++ w = digits2 (d.year / 100) ++ (digits2 (d.year % 100) ++
      ('-' :: (digits2 d.month ++ ('-' :: (digits2 d.day ++ w))))) := by
  rw [isoChars, digits4_eq_pair]
  simp [List.append_assoc]

theorem validDate_bounds {d : Date} (h : validDate d = true) :
    1 ≤ d.year ∧ d.year ≤ 9999 ∧ 1 ≤ d.month ∧ d.month ≤ 12 ∧
      1 ≤ d.day ∧ d.day ≤ 31 := by
  simp only [validDate, Bool.and_eq_true, decide_eq_true_eq] at h
  have hm : daysInMonth d.year d.month ≤ 31 := by
    unfold daysInMonth
    split <;> (try split) <;> omega
  omega

theorem lexLe_iso_false {d e : Date} (hd : validDate d = true)
    (he : validDate e = true) (hlt : ¬ dateLePr d e) (w w' : List Char) :
    lexLe (isoChars d ++ w) (isoChars e ++ w') = false := by
  obtain ⟨hd1, hd2, hd3, hd4, hd5, hd6⟩ := validDate_bounds hd
  obtain ⟨he1, he2, he3, he4, he5, he6⟩ := validDate_bounds he
  have hc : e.year < d.year ∨ (e.year = d.year ∧ (e.month < d.month ∨
      (e.month = d.month ∧ e.day < d.day))) := by
    unfold dateLePr at hlt
    omega
  rw [isoChars_append, isoChars_append]
  rcases hc with hy | ⟨hy, hm | ⟨hm, hdd⟩⟩
  · rcases Nat.lt_trichotomy (e.year / 100) (d.year / 100) with hq | hq | hq
    · exact digits2_append_gt hq (by omega) _ _
    · rw [hq, lexLe_append_left_cancel]
      exact digits2_append_gt (by omega) (by omega) _ _
    · omega
  · rw [hy, lexLe_append_left_cancel, lexLe_append_left_cancel, lexLe_cons_self]
    exact digits2_append_gt hm (by omega) _ _
  · rw [hy, hm, lexLe_append_left_cancel, lexLe_append_left_cancel,
      lexLe_cons_self, lexLe_append_left_cancel, lexLe_cons_self]
    exact digits2_append_gt hdd (by omega) _ _

theorem digit_facts {c : Char} (h : isDigitB c = true) :
    dVal c < 10 ∧ digitChar (dVal c) = c := by
  simp only [isDigitB, List.mem_cons, List.not_mem_nil, or_false,
    decide_eq_true_eq] at h
  rcases h with rfl | rfl | rfl | rfl | rfl | rfl | rfl | rfl | rfl | rfl <;>
    exact ⟨by decide, by decide⟩

theorem parseIso_inv {l : List Char} {d : Date} (h : parseIso l = some d) :
    validDate d = true ∧ l = isoChars d := by
  cases l with
  | nil => simp [parseIso] at h
  | cons c1 t1 =>
  cases t1 with
  | nil => simp [parseIso] at h
  | cons c2 t2 =>
  cases t2 with
  | nil => simp [parseIso] at h
  | cons c3 t3 =>
  cases t3 with
  | nil => simp [parseIso] at h
  | cons c4 t4 =>
  cases t4 with
  | nil => simp [parseIso] at h
  | cons c5 t5 =>
  cases t5 with
  | nil => simp [parseIso] at h
  | cons c6 t6 =>
  cases t6 with
  | nil => simp [parseIso] at h
  | cons c7 t7 =>
  cases t7 with
  | nil => simp [parseIso] at h
  | cons c8 t8 =>
  cases t8 with
  | nil => simp [parseIso] at h
  | cons c9 t9 =>
  cases t9 with
  | nil => simp [parseIso] at h
  | cons c10 t10 =>
  cases t10 with
  | cons c11 t11 => simp [parseIso] at h
  | nil =>
  simp only [parseIso] at h
  split at h
  case isFalse => exact absurd h (by simp)
  case isTrue hcond =>
  split at h
  case isFalse => exact absurd h (by simp)
  case isTrue hval =>
  obtain ⟨⟨⟨⟨⟨⟨⟨⟨⟨hy1, hy2⟩, hy3⟩, hy4⟩, hh1⟩, hm1⟩, hm2⟩, hh2⟩, hd1⟩, hd2⟩ :=
    by simpa only [Bool.and_eq_true, decide_eq_true_eq] using hcond
  injection h with h
  subst h
  refine ⟨hval, ?_⟩
  have f1 := digit_facts hy1
  have f2 := digit_facts hy2
  have f3 := digit_facts hy3
  have f4 := digit_facts hy4
  have f5 := digit_facts hm1
  have f6 := digit_facts hm2
  have f7 := digit_facts hd1
  have f8 := digit_facts hd2
  have b1 := f1.1
  have b2 := f2.1
  have b3 := f3.1
  have b4 := f4.1
  have b5 := f5.1
  have b6 := f6.1
  have b7 := f7.1
  have b8 := f8.1
  simp only [isoChars, digits4, digits2, List.cons_append, List.nil_append]
  rw [show (dVal c1 * 1000 + dVal c2 * 100 + dVal c3 * 10 + dVal c4) / 1000 % 10
        = dVal c1 from by omega,
    show (dVal c1 * 1000 + dVal c2 * 100 + dVal c3 * 10 + dVal c4) / 100 % 10
        = dVal c2 from by omega,
    show (dVal c1 * 1000 + dVal c2 * 100 + dVal c3 * 10 + dVal c4) / 10 % 10
        = dVal c3 from by omega,
    show (dVal c1 * 1000 + dVal c2 * 100 + dVal c3 * 10 + dVal c4) % 10
        = dVal c4 from by omega,
    show (dVal c6 * 10 + dVal c7) / 10 % 10 = dVal c6 from by omega,
    show (dVal c6 * 10 + dVal c7) % 10 = dVal c7 from by omega,
    show (dVal c9 * 10 + dVal c10) / 10 % 10 = dVal c9 from by omega,
    show (dVal c9 * 10 + dVal c10) % 10 = dVal c10 from by omega,
    f1.2, f2.2, f3.2, f4.2, f5.2, f6.2, f7.2, f8.2, hh1, hh2]

theorem entLe_dates {a b : DEntry} {da db : Date}
    (ha : parseIso a.stem = some da) (hb : parseIso b.stem = some db)
    (h : entLe a b) : dateLePr da db := by
  by_contra hn
  obtain ⟨hva, hsa⟩ := parseIso_inv ha
  obtain ⟨hvb, hsb⟩ := parseIso_inv hb
  unfold entLe entKey at h
  rw [hsa, hsb, lexLe_iso_false hva hvb hn] at h
  cases h

/-! ## Lemmas: sorting, filtering and selecting directory entries -/

theorem orderedInsert_eq_cons {a : DEntry} {m : List DEntry}
    (h : ∀ z ∈ m, entLe a z) : List.orderedInsert entLe a m = a :: m := by
  cases m with
  | nil => rfl
  | cons z zs => exact List.orderedInsert_of_le entLe zs (h z (List.mem_cons_self z zs))

theorem filter_orderedInsert (p : DEntry → Bool) (a : DEntry) (l : List DEntry)
    (hs : l.Sorted entLe) :
    (List.orderedInsert entLe a l).filter p =
      if p a = true then List.orderedInsert entLe a (l.filter p) else l.filter p := by
  induction l with
  | nil =>
    by_cases pa : p a = true <;> simp [List.orderedInsert, List.filter, pa]
  | cons y ys ih =>
    have hys : ys.Sorted entLe := hs.of_cons
    have hyz : ∀ z ∈ ys, entLe y z := List.rel_of_sorted_cons hs
    by_cases hay : entLe a y
    · rw [List.orderedInsert_of_le entLe ys hay]
      by_cases pa : p a = true <;> by_cases py : p y = true
      · have h2 : List.orderedInsert entLe a (y :: ys.filter p)
            = a :: y :: ys.filter p := List.orderedInsert_of_le entLe _ hay
        simp [List.filter_cons, pa, py, h2]
      · have hall : ∀ z ∈ ys.filter p, entLe a z := fun z hz =>
          IsTrans.trans a y z hay (hyz z (List.mem_of_mem_filter hz))
        have h2 := orderedInsert_eq_cons hall
        simp [List.filter_cons, pa, py, h2]
      · simp [List.filter_cons, pa, py]
      · simp [List.filter_cons, pa, py]
    · rw [List.orderedInsert, if_neg hay]
      by_cases py : p y = true
      · by_cases pa : p a = true
        · have h2 : List.orderedInsert entLe a (y :: ys.filter p)
              = y :: List.orderedInsert entLe a (ys.filter p) := by
            rw [List.orderedInsert, if_neg hay]
          simp [List.filter_cons, pa, py, ih hys, h2]
        · simp [List.filter_cons, pa, py, ih hys]
      · simp [List.filter_cons, py, ih hys]

theorem insertionSort_filter (p : DEntry → Bool) (l : List DEntry) :
    List.insertionSort entLe (l.filter p) = (List.insertionSort entLe l).filter p := by
  induction l with
  | nil => rfl
  | cons a l ih =>
    rw [List.filter_cons]
    by_cases pa : p a = true
    · rw [if_pos pa, List.insertionSort, List.insertionSort, ih,
        filter_orderedInsert p a _ (List.sorted_insertionSort entLe l), if_pos pa]
    · rw [if_neg pa, List.insertionSort, ih,
        filter_orderedInsert p a _ (List.sorted_insertionSort entLe l), if_neg pa]

theorem filterMap_filter_eq {α β : Type} (f : α → Option β) (q : α → Bool)
    (hf : ∀ x, q x = false → f x = none) (L : List α) :
    (L.filter q).filterMap f = L.filterMap f := by
  induction L with
  | nil => rfl
  | cons a L ih =>
    rw [List.filter_cons]
    by_cases qa : q a = true
    · rw [if_pos qa, List.filterMap_cons, List.filterMap_cons]
      cases f a <;> rw [ih]
    · rw [if_neg qa, List.filterMap_cons, hf a (by simpa using qa), ih]

theorem scanEntry_none_of_ill {s e : Date} {ent : DEntry}
    (h : wellFormedEntry ent = false) : scanEntry s e ent = none := by
  unfold wellFormedEntry at h
  unfold scanEntry
  cases hp : parseIso ent.stem with
  | none => rfl
  | some fd =>
    rw [hp] at h
    have hc : ent.content = none := by
      cases hcc : ent.content with
      | none => rfl
      | some c => rw [hcc] at h; simp at h
    rw [hc]
    show (if dateLePr s fd ∧ dateLePr fd e then none else (none : Option Dict)) = none
    exact ite_self none

theorem mem_insertionSort_iff {l : List DEntry} {x : DEntry} :
    x ∈ List.insertionSort entLe l ↔ x ∈ l :=
  (List.perm_insertionSort entLe l).mem_iff

theorem selEntry_snd (s e : Date) (ent : DEntry) :
    (selEntry s e ent).map Prod.snd = scanEntry s e ent := by
  unfold selEntry scanEntry
  cases hp : parseIso ent.stem with
  | none => rfl
  | some fd =>
    have hshape : (Option.map Prod.snd (if dateLePr s fd ∧ dateLePr fd e
          then Option.map (fun c => (fd, c)) ent.content else none)
        = (if dateLePr s fd ∧ dateLePr fd e then ent.content else none)) → _ := id
    apply hshape
    by_cases hP : dateLePr s fd ∧ dateLePr fd e
    · rw [if_pos hP, if_pos hP]
      cases ent.content <;> rfl
    · rw [if_neg hP, if_neg hP]
      rfl

theorem selEntry_parse {s e : Date} {ent : DEntry} {pr : Date × Dict}
    (h : selEntry s e ent = some pr) :
    parseIso ent.stem = some pr.1 ∧ dateLePr s pr.1 ∧ dateLePr pr.1 e ∧
      ent.content = some pr.2 := by
  unfold selEntry at h
  cases hp : parseIso ent.stem with
  | none => rw [hp] at h; cases h
  | some fd =>
    rw [hp] at h
    replace h : (if dateLePr s fd ∧ dateLePr fd e
        then Option.map (fun c => (fd, c)) ent.content else none) = some pr := h
    split at h
    case isTrue hrange =>
      cases hc : ent.content with
      | none => rw [hc] at h; cases h
      | some c =>
        rw [hc, Option.map_some'] at h
        obtain rfl : pr = (fd, c) := by injection h with h; exact h.symm
        exact ⟨by simp, hrange.1, hrange.2, by simp⟩
    case isFalse => cases h

theorem selEntry_of_parse {s e : Date} {ent : DEntry} {fd : Date} {rec : Dict}
    (hp : parseIso ent.stem = some fd) (hs : dateLePr s fd) (he : dateLePr fd e)
    (hc : ent.content = some rec) : selEntry s e ent = some (fd, rec) := by
  unfold selEntry
  rw [hp]
  show (if dateLePr s fd ∧ dateLePr fd e
      then Option.map (fun c => (fd, c)) ent.content else none) = some (fd, rec)
  rw [if_pos ⟨hs, he⟩, hc, Option.map_some']

theorem mem_selectInRange {entries : List DEntry} {s e fd : Date} {rec : Dict} :
    (fd, rec) ∈ selectInRange entries s e ↔
      ∃ ent ∈ entries, parseIso ent.stem = some fd ∧ dateLePr s fd ∧
        dateLePr fd e ∧ ent.content = some rec := by
  unfold selectInRange
  rw [List.mem_filterMap]
  constructor
  · rintro ⟨ent, hmem, hg⟩
    obtain ⟨hp, hs2, he2, hc⟩ := selEntry_parse hg
    exact ⟨ent, mem_insertionSort_iff.mp hmem, hp, hs2, he2, hc⟩
  · rintro ⟨ent, hmem, hp, hs2, he2, hc⟩
    exact ⟨ent, mem_insertionSort_iff.mpr hmem, selEntry_of_parse hp hs2 he2 hc⟩

theorem selectInRange_dates_sorted (entries : List DEntry) (s e : Date) :
    ((selectInRange entries s e).map Prod.fst).Sorted dateLePr := by
  unfold selectInRange
  have hs := List.sorted_insertionSort entLe entries
  have hpw := List.Pairwise.filterMap (R := entLe)
    (S := fun p q : Date × Dict => dateLePr p.1 q.1) (selEntry s e)
    (fun a b hab x hx y hy => by
      have hxa := selEntry_parse (Option.mem_def.mp hx)
      have hyb := selEntry_parse (Option.mem_def.mp hy)
      exact entLe_dates hxa.1 hyb.1 hab) hs
  exact List.pairwise_map.mpr hpw

theorem load_history_eq_select (entries : List DEntry) (n : Nat) (today : Date)
    (s0 e0 : Option Date) :
    load_history (some entries) s0 e0 (some n) today
      = (selectInRange entries (subDays today n) today).map Prod.snd := by
  unfold load_history selectInRange
  rw [List.map_filterMap]
  apply List.filterMap_congr
  intro ent _
  exact (selEntry_snd (subDays today n) today ent).symm

/-! ## Claim theorems for history loading -/

/-- C6: with lastNDays = 7 the scan window is exactly [today - 7, today]
inclusive - any explicitly supplied start/end dates are ignored - and the
result is exactly the well-formed records whose file date lies in the window
(everything else on disk is excluded), in ascending date order. -/
theorem C6_load_history_last7 (entries : List DEntry) (s0 e0 : Option Date)
    (today : Date) :
    load_history (some entries) s0 e0 (some 7) today
      = load_history (some entries) none none (some 7) today ∧
    load_history (some entries) s0 e0 (some 7) today
      = (selectInRange entries (subDays today 7) today).map Prod.snd ∧
    (∀ (fd : Date) (rec : Dict),
      (fd, rec) ∈ selectInRange entries (subDays today 7) today ↔
        ∃ ent ∈ entries, parseIso ent.stem = some fd ∧
          dateLePr (subDays today 7) fd ∧ dateLePr fd today ∧
          ent.content = some rec) ∧
    ((selectInRange entries (subDays today 7) today).map Prod.fst).Sorted dateLePr :=
  ⟨rfl, load_history_eq_select entries 7 today s0 e0,
    fun _ _ => mem_selectInRange, selectInRange_dates_sorted entries _ _⟩

/-- C6 witness: a concrete store with one record dated inside the 7-day window
of a concrete today; the membership characterization places it in the scan. -/
theorem C6_load_history_last7_witness :
    ((⟨2025, 10, 10⟩ : Date), ([(cs "decision", PyVal.str (cs "HOLD"))] : Dict)) ∈
      selectInRange [⟨cs "2025-10-10", some [(cs "decision", PyVal.str (cs "HOLD"))]⟩]
        (subDays ⟨2025, 10, 12⟩ 7) ⟨2025, 10, 12⟩ :=
  ((C6_load_history_last7
      [⟨cs "2025-10-10", some [(cs "decision", PyVal.str (cs "HOLD"))]⟩]
      none none ⟨2025, 10, 12⟩).2.2.1 _ _).mpr
    ⟨⟨cs "2025-10-10", some [(cs "decision", PyVal.str (cs "HOLD"))]⟩,
      List.mem_cons_self _ _, by decide, by decide, by decide, rfl⟩

/-- C7: loadHistory never aborts on bad state - a missing ticker directory
yields the empty sequence, and every file whose stem is not a valid ISO date or
whose content is not valid JSON is skipped while the scan continues: the result
over any directory equals the result over just its well-formed files, for every
selection mode. -/
theorem C7_load_history_skips_invalid :
    (∀ (s e : Option Date) (n : Option Nat) (today : Date),
      load_history none s e n today = []) ∧
    (∀ (entries : List DEntry) (s e : Option Date) (n : Option Nat) (today : Date),
      load_history (some entries) s e n today =
        load_history (some (entries.filter wellFormedEntry)) s e n today) := by
  refine ⟨fun s e n today => rfl, fun entries s e n today => ?_⟩
  simp only [load_history]
  rw [insertionSort_filter, filterMap_filter_eq _ wellFormedEntry
    (fun x hx => scanEntry_none_of_ill hx)]
